import Mathlib

/-!
# Verification of the Sentry exporter span-to-transaction engine

Shallow embedding of the span classification and transaction assembly
engine of the sentryexporter package (sentry_exporter.go, interfaces.go
and related files), together with proofs of the specified properties.

Go maps are modelled as association lists with in-place overwrite on
insert (`mapInsert`), which matches Go map semantics up to iteration
order; iteration order over these maps, unspecified in Go, is
determinized to insertion order.
-/

namespace SentryExporter

/-! ## Go map model -/

/-- Lookup in an association-list model of a Go map. -/
def mapLookup {α : Type} (m : List (String × α)) (k : String) : Option α :=
  match m with
  | [] => none
  | (k₁, v) :: rest => if k₁ = k then some v else mapLookup rest k

/-- Insert into an association-list model of a Go map: overwrites in
place when the key is present, appends otherwise. -/
def mapInsert {α : Type} (m : List (String × α)) (k : String) (v : α) : List (String × α) :=
  match m with
  | [] => [(k, v)]
  | (k₁, v₁) :: rest => if k₁ = k then (k, v) :: rest else (k₁, v₁) :: mapInsert rest k v

/-- The keys of an association-list map. -/
def mapKeys {α : Type} (m : List (String × α)) : List String :=
  m.map (fun p => p.1)

/-! ## Data model (interfaces.go / sentry-go) -/

/-- Sentry tag collection (`Tags`, interfaces.go). -/
abbrev Tags := List (String × String)

/-- `sentry.Span` as used by the exporter: trace id, span id and parent
span id are hex strings; timestamps are nanosecond counts. -/
structure SentrySpan where
  TraceID : String
  SpanID : String
  ParentSpanID : String
  Description : String
  Op : String
  Tags : Tags
  StartTimestamp : Nat
  EndTimestamp : Nat
  Status : String
deriving DecidableEq, Repr

/-- `IsRootSpan` (span utilities): a span is a root span exactly when
its parent span id is the empty string. -/
def IsRootSpan (s : SentrySpan) : Bool :=
  s.ParentSpanID == ""

/-- `spanCollection` (sentry_exporter.go): a converted span bundled with
the library and resource context it originated from. -/
structure spanCollection where
  span : SentrySpan
  libraryName : String
  libraryVersion : String
  resourceTags : Tags
deriving DecidableEq, Repr

/-- `rootSpanTree` (sentry_exporter.go): a root span, its accumulated
child spans, and the batch-scoped metadata recorded at tree creation. -/
structure rootSpanTree where
  rootSpan : SentrySpan
  childSpans : List SentrySpan
  libraryName : String
  libraryVersion : String
  resourceTags : Tags
deriving DecidableEq, Repr

/-- `idMap` of sentry_exporter.go: maps every span id known to belong to
some tree to that tree's root span id. -/
abbrev IDMap := List (String × String)

/-- `rootSpanTreeMap` of sentry_exporter.go: maps a root span id to its
root span tree. -/
abbrev TreeMap := List (String × rootSpanTree)

/-- The Go statement `rootSpanTreeMap[rootSpanID].childSpans = append(...)`:
append a span to the child list of the tree stored at the given key,
leaving the map unchanged when the key is absent (in Go an absent key
here would be a nil dereference; the engine never reaches that case). -/
def attachChild (tm : TreeMap) (k : String) (sp : SentrySpan) : TreeMap :=
  match tm with
  | [] => []
  | (k₁, t) :: rest =>
    if k₁ = k then (k₁, { t with childSpans := t.childSpans ++ [sp] }) :: rest
    else (k₁, t) :: attachChild rest k sp

/-! ## Span classifier (first pass of pushTraceData) -/

/-- The mutable state threaded through the classifier loop of
`pushTraceData`: the id map, the tree map and the deferred
(`maybeOrphanSpans`) worklist. -/
structure ClassifierState where
  idMap : IDMap
  treeMap : TreeMap
  orphans : List spanCollection
deriving DecidableEq, Repr

/-- One iteration of the innermost loop of `pushTraceData`
(sentry_exporter.go lines 138-160): a root span opens a new tree and a
self entry in the id map; a non-root span either resolves through the id
map (attaching to its tree and extending the id map transitively) or is
deferred to the worklist. -/
def classifyStep (st : ClassifierState) (sc : spanCollection) : ClassifierState :=
  if IsRootSpan sc.span then
    { idMap := mapInsert st.idMap sc.span.SpanID sc.span.SpanID
      treeMap := mapInsert st.treeMap sc.span.SpanID
        ⟨sc.span, [], sc.libraryName, sc.libraryVersion, sc.resourceTags⟩
      orphans := st.orphans }
  else
    match mapLookup st.idMap sc.span.ParentSpanID with
    | some rootSpanID =>
        { idMap := mapInsert st.idMap sc.span.SpanID rootSpanID
          treeMap := attachChild st.treeMap rootSpanID sc.span
          orphans := st.orphans }
    | none => { st with orphans := st.orphans ++ [sc] }

/-- The classifier pass of `pushTraceData`: fold `classifyStep` over the
batch, conceptually flattened across resource and library groups with
each span retaining its originating context. -/
def classifySpans (spans : List spanCollection) : ClassifierState :=
  spans.foldl classifyStep ⟨[], [], []⟩

/-! ## Orphan resolver (classifyAsOrphanSpans) -/

/-- The body of the `for` loop of `classifyAsOrphanSpans`: a worklist
span either resolves through the id map or is carried into the next
worklist. The accumulator carries (idMap, treeMap, newOrphanSpans). -/
def resolveStep (acc : IDMap × TreeMap × List spanCollection) (orphan : spanCollection) :
    IDMap × TreeMap × List spanCollection :=
  match mapLookup acc.1 orphan.span.ParentSpanID with
  | some rootSpanID =>
      (mapInsert acc.1 orphan.span.SpanID rootSpanID,
       attachChild acc.2.1 rootSpanID orphan.span,
       acc.2.2)
  | none => (acc.1, acc.2.1, acc.2.2 ++ [orphan])

/-- One full pass of `classifyAsOrphanSpans` over the current worklist. -/
def resolvePass (orphans : List spanCollection) (idMap : IDMap) (treeMap : TreeMap) :
    IDMap × TreeMap × List spanCollection :=
  orphans.foldl resolveStep (idMap, treeMap, [])

theorem resolvePass_acc_length (orphans : List spanCollection) :
    ∀ idMap treeMap acc,
      (orphans.foldl resolveStep (idMap, treeMap, acc)).2.2.length ≤ acc.length + orphans.length := by
  induction orphans with
  | nil => intro idMap treeMap acc; simp
  | cons o rest ih =>
    intro idMap treeMap acc
    rw [List.foldl_cons]
    cases h : mapLookup idMap o.span.ParentSpanID with
    | some rootSpanID =>
      rw [show resolveStep (idMap, treeMap, acc) o =
          (mapInsert idMap o.span.SpanID rootSpanID, attachChild treeMap rootSpanID o.span, acc)
        from by simp [resolveStep, h]]
      exact Nat.le_trans (ih _ _ _) (by simp only [List.length_cons]; omega)
    | none =>
      rw [show resolveStep (idMap, treeMap, acc) o = (idMap, treeMap, acc ++ [o])
        from by simp [resolveStep, h]]
      have hrec := ih idMap treeMap (acc ++ [o])
      simp only [List.length_append, List.length_cons, List.length_nil] at hrec ⊢
      omega

theorem resolvePass_length_le (orphans : List spanCollection) (idMap : IDMap) (treeMap : TreeMap) :
    (resolvePass orphans idMap treeMap).2.2.length ≤ orphans.length := by
  simpa using resolvePass_acc_length orphans idMap treeMap []

/-- `classifyAsOrphanSpans` (sentry_exporter.go lines 205-223): the
bounded fix-point iteration over the worklist. Returns the final
unresolved worklist together with the (mutated) id map and tree map. -/
def classifyAsOrphanSpans (orphanSpans : List spanCollection) (prevLength : Nat)
    (idMap : IDMap) (rootSpanTreeMap : TreeMap) :
    List spanCollection × IDMap × TreeMap :=
  if orphanSpans.length = 0 ∨ orphanSpans.length = prevLength then
    (orphanSpans, idMap, rootSpanTreeMap)
  else
    classifyAsOrphanSpans (resolvePass orphanSpans idMap rootSpanTreeMap).2.2
      orphanSpans.length (resolvePass orphanSpans idMap rootSpanTreeMap).1
      (resolvePass orphanSpans idMap rootSpanTreeMap).2.1
termination_by 2 * orphanSpans.length + (if orphanSpans.length = prevLength then 0 else 1)
decreasing_by
  have hle : (resolvePass orphanSpans idMap rootSpanTreeMap).2.2.length ≤ orphanSpans.length :=
    resolvePass_length_le orphanSpans idMap rootSpanTreeMap
  rename_i h
  push_neg at h
  by_cases heq : (resolvePass orphanSpans idMap rootSpanTreeMap).2.2.length = orphanSpans.length <;>
    (simp [heq, h.2]; try omega)

/-! ## Transaction generation -/

/-- The trace context stored under `Contexts["trace"]` on a Sentry
transaction event (`TraceContext`, interfaces.go). -/
structure TraceContext where
  TraceID : String
  SpanID : String
  Op : String
  Description : String
deriving DecidableEq, Repr

/-- The fields of the Sentry transaction event that `transactionFromSpans`
populates (interfaces.go `SentryTransaction` / `sentry.Event`). -/
structure SentryTransaction where
  ContextsTrace : TraceContext
  SdkName : String
  SdkVersion : String
  Tags : Tags
  StartTimestamp : Nat
  Timestamp : Nat
  Transaction : String
  Spans : List SentrySpan
deriving DecidableEq, Repr

/-- `transactionFromSpans`: renders a root span and its child list into a
transaction event. Follows the interfaces.go body (which sets
`StartTimestamp` and `Spans` from the root span and the child list), with
the library and resource metadata passed as parameters as in the
sentry_exporter.go revision's signature. The final loop copies every
resource tag into the transaction's tag map, overwriting on collision. -/
def transactionFromSpans (rootSpan : SentrySpan) (childSpans : List SentrySpan)
    (libName libVersion : String) (resourceTags : Tags) : SentryTransaction :=
  { ContextsTrace := ⟨rootSpan.TraceID, rootSpan.SpanID, rootSpan.Op, rootSpan.Description⟩
    SdkName := libName
    SdkVersion := libVersion
    Tags := resourceTags.foldl (fun acc kv => mapInsert acc kv.1 kv.2) rootSpan.Tags
    StartTimestamp := rootSpan.StartTimestamp
    Timestamp := rootSpan.EndTimestamp
    Transaction := rootSpan.Description
    Spans := childSpans }

/-- Modelled from the spec: `transactionFromTree` is called by
`generateTransactions` but its body is not among the sources; per the
spec (transaction builder section) it renders one tree into one output
transaction, which is exactly `transactionFromSpans` applied to the
tree's fields. -/
def transactionFromTree (t : rootSpanTree) : SentryTransaction :=
  transactionFromSpans t.rootSpan t.childSpans t.libraryName t.libraryVersion t.resourceTags

/-- `generateTransactions` (sentry_exporter.go lines 179-200): one
transaction per tree of the tree map, then one transaction per remaining
orphan, each orphan promoted to a root with no children. -/
def generateTransactions (rootSpanTreeMap : TreeMap) (orphanSpans : List spanCollection) :
    List SentryTransaction :=
  (rootSpanTreeMap.map fun p => transactionFromTree p.2) ++
    (orphanSpans.map fun orphan =>
      transactionFromTree ⟨orphan.span, [], orphan.libraryName, orphan.libraryVersion,
        orphan.resourceTags⟩)

/-- The promoted single-span tree built for a never-resolved orphan in
`generateTransactions`. -/
def promotedTree (orphan : spanCollection) : rootSpanTree :=
  ⟨orphan.span, [], orphan.libraryName, orphan.libraryVersion, orphan.resourceTags⟩

/-- The output transaction trees of the engine: the trees of the tree
map followed by one promoted single-span tree per unresolved orphan,
exactly the trees `generateTransactions` renders. -/
def outputTrees (rootSpanTreeMap : TreeMap) (orphanSpans : List spanCollection) :
    List rootSpanTree :=
  rootSpanTreeMap.map (fun p => p.2) ++ orphanSpans.map promotedTree

theorem generateTransactions_eq_map (tm : TreeMap) (orphans : List spanCollection) :
    generateTransactions tm orphans = (outputTrees tm orphans).map transactionFromTree := by
  simp [generateTransactions, outputTrees, promotedTree, List.map_map]
  rfl

/-- `pushTraceData` restricted to the engine (classification, orphan
resolution, transaction generation), on the conceptually flattened batch. -/
def pushTraceData (spans : List spanCollection) : List SentryTransaction :=
  let st := classifySpans spans
  let res := classifyAsOrphanSpans st.orphans (st.orphans.length + 1) st.idMap st.treeMap
  generateTransactions res.2.2 res.1

/-! ## Conversion from OpenTelemetry spans (convertToSentrySpan) -/

/-- A pdata attribute value. Floating-point values (`AttributeValueDOUBLE`)
are carried as their already-rendered decimal string, keeping Go's
`strconv.FormatFloat` abstract; no verified claim depends on it. -/
inductive AttributeValue where
  | STRING (s : String)
  | BOOL (b : Bool)
  | DOUBLE (rendered : String)
  | INT (i : Int)
deriving DecidableEq, Repr

/-- `pdata.AttributeValue.StringVal()`: the string payload, or the zero
value for non-string attributes. -/
def AttributeValue.StringVal : AttributeValue → String
  | .STRING s => s
  | _ => ""

/-- A pdata attribute map, determinized to insertion order. -/
abbrev AttributeMap := List (String × AttributeValue)

/-- `pdata.SpanKind`. -/
inductive SpanKind where
  | UNSPECIFIED
  | INTERNAL
  | SERVER
  | CLIENT
  | PRODUCER
  | CONSUMER
deriving DecidableEq, Repr

/-- `pdata.SpanKind.String()`: the lowercase kind name used as the
`span_kind` tag (the fixtures show "server" and "client"). -/
def SpanKind.str : SpanKind → String
  | .UNSPECIFIED => "unspecified"
  | .INTERNAL => "internal"
  | .SERVER => "server"
  | .CLIENT => "client"
  | .PRODUCER => "producer"
  | .CONSUMER => "consumer"

/-- `pdata.SpanStatus` when non-nil: a status code and a message. -/
structure SpanStatus where
  code : Int
  message : String
deriving DecidableEq, Repr

/-- A non-nil `pdata.Span` as consumed by `convertToSentrySpan`: the
identifiers are raw byte slices (bytes as naturals), the status is
`none` when `Status().IsNil()`. -/
structure OtelSpan where
  TraceID : List Nat
  SpanID : List Nat
  ParentSpanID : List Nat
  Name : String
  Attributes : AttributeMap
  Kind : SpanKind
  Status : Option SpanStatus
  StartTime : Nat
  EndTime : Nat
deriving DecidableEq, Repr

/-- Modelled from the spec: `isAllZero` is called by
`convertToSentrySpan` but its definition is not among the sources; per
the spec both the empty identifier and the fixed-width all-zero byte
identifier encode "no parent", so `isAllZero` holds exactly when every
byte of the identifier is zero (vacuously for the empty identifier). -/
def isAllZero (bytes : List Nat) : Bool :=
  bytes.all (fun b => b == 0)

/-- The lowercase hex digit for a value below 16: digits use the ASCII
range from 48, letters the range from 87 (so 10 maps to 97, 'a'). -/
def hexDigit (n : Nat) : Char :=
  Char.ofNat (if n < 10 then 48 + n else 87 + n)

/-- One byte as two lowercase hex characters. -/
def byteToHex (b : Nat) : List Char :=
  [hexDigit (b / 16 % 16), hexDigit (b % 16)]

/-- `pdata` identifier `String()`: lowercase hex encoding of the bytes
(the fixtures map bytes 1..8 to "0102030405060708"). -/
def bytesToHexString (bytes : List Nat) : String :=
  String.mk (bytes.flatMap byteToHex)

/-- Modelled from the spec: `unixNanoToTime` is called by
`convertToSentrySpan` but its definition is not among the sources; time
values are represented by their nanosecond counts, under which the
conversion is the identity. -/
def unixNanoToTime (ts : Nat) : Nat := ts

/-- `sentryStatusUnknown` (sentry_exporter.go line 33). -/
def sentryStatusUnknown : String := "unknown"

/-- `canonicalCodes` (sentry_exporter.go lines 36-54): the 17-entry
table from OpenTelemetry status codes to Sentry span statuses. -/
def canonicalCodes : List String :=
  ["ok", "cancelled", sentryStatusUnknown, "invalid_argument", "deadline_exceeded",
   "not_found", "already_exists", "permission_denied", "resource_exhausted",
   "failed_precondition", "aborted", "out_of_range", "unimplemented", "internal",
   "unavailable", "data_loss", "unauthenticated"]

/-- `statusFromSpanStatus` (sentry_exporter.go lines 356-367): a nil
status yields empty strings; an out-of-range code yields the unknown
status with an "error code N" message; otherwise the canonical table
entry and the status's own message. -/
def statusFromSpanStatus (spanStatus : Option SpanStatus) : String × String :=
  match spanStatus with
  | none => ("", "")
  | some st =>
    if st.code < 0 ∨ (canonicalCodes.length : Int) ≤ st.code then
      (sentryStatusUnknown, "error code " ++ toString st.code)
    else
      (canonicalCodes.getD st.code.toNat "", st.message)

/-- `generateSpanDescriptors` (sentry_exporter.go lines 273-335):
derives the span op and description from the name, attributes and kind
following the OpenTelemetry semantic conventions, first match wins. -/
def generateSpanDescriptors (name : String) (attrs : AttributeMap) (spanKind : SpanKind) :
    String × String :=
  match mapLookup attrs "http.method" with
  | some httpMethod =>
    let op := "http" ++ (match spanKind with
      | .CLIENT => ".client"
      | .SERVER => ".server"
      | _ => "")
    (op, httpMethod.StringVal ++ " " ++ name)
  | none =>
  match mapLookup attrs "db.type" with
  | some _ =>
    ("db", match mapLookup attrs "db.statement" with
      | some statement => statement.StringVal
      | none => name)
  | none =>
  match mapLookup attrs "rpc.service" with
  | some _ => ("rpc", name)
  | none =>
  match mapLookup attrs "messaging.system" with
  | some _ => ("message", name)
  | none =>
  match mapLookup attrs "faas.trigger" with
  | some trigger => (trigger.StringVal, name)
  | none => ("", name)

/-- The tag rendering of one attribute value in
`generateTagsFromAttributes` (strconv formatting; the DOUBLE case keeps
the rendered string of the model). -/
def attributeTagValue : AttributeValue → String
  | .STRING s => s
  | .BOOL b => if b then "true" else "false"
  | .DOUBLE rendered => rendered
  | .INT i => toString i

/-- `generateTagsFromAttributes` (sentry_exporter.go lines 337-354). -/
def generateTagsFromAttributes (attrs : AttributeMap) : Tags :=
  attrs.foldl (fun tags kv => mapInsert tags kv.1 (attributeTagValue kv.2)) []

/-- `convertToSentrySpan` (sentry_exporter.go lines 225-265) on a
non-nil span: normalizes an all-zero (or empty) parent identifier to the
empty-string sentinel, hex-encodes the identifiers, and assembles the
Sentry span. -/
def convertToSentrySpan (span : OtelSpan) : SentrySpan :=
  let parentSpanID := if isAllZero span.ParentSpanID then "" else bytesToHexString span.ParentSpanID
  let od := generateSpanDescriptors span.Name span.Attributes span.Kind
  let sm := statusFromSpanStatus span.Status
  let tags := generateTagsFromAttributes span.Attributes
  let tags := if sm.2 ≠ "" then mapInsert tags "status_message" sm.2 else tags
  let tags := if span.Kind ≠ SpanKind.UNSPECIFIED then mapInsert tags "span_kind" span.Kind.str else tags
  { TraceID := bytesToHexString span.TraceID
    SpanID := bytesToHexString span.SpanID
    ParentSpanID := parentSpanID
    Description := od.2
    Op := od.1
    Tags := tags
    StartTimestamp := unixNanoToTime span.StartTime
    EndTimestamp := unixNanoToTime span.EndTime
    Status := sm.1 }

/-! ## Association-map lemmas -/

theorem mapLookup_mapInsert {α : Type} (m : List (String × α)) (k j : String) (v : α) :
    mapLookup (mapInsert m k v) j = if k = j then some v else mapLookup m j := by
  induction m with
  | nil => simp [mapInsert, mapLookup]
  | cons p rest ih =>
    obtain ⟨k₁, v₁⟩ := p
    by_cases h1 : k₁ = k
    · subst h1
      by_cases h2 : k₁ = j <;> simp [mapInsert, mapLookup, h2]
    · by_cases h2 : k₁ = j
      · subst h2
        have hkj : ¬k = k₁ := fun hh => h1 hh.symm
        simp [mapInsert, mapLookup, h1, hkj]
      · simp [mapInsert, mapLookup, h1, h2, ih]

theorem mem_of_mapLookup {α : Type} {m : List (String × α)} {k : String} {v : α}
    (h : mapLookup m k = some v) : (k, v) ∈ m := by
  induction m with
  | nil => simp [mapLookup] at h
  | cons p rest ih =>
    obtain ⟨k₁, v₁⟩ := p
    by_cases h1 : k₁ = k
    · subst h1
      simp [mapLookup] at h
      simp [h]
    · simp [mapLookup, h1] at h
      exact List.mem_cons_of_mem _ (ih h)

theorem mapLookup_eq_none_iff {α : Type} (m : List (String × α)) (k : String) :
    mapLookup m k = none ↔ k ∉ mapKeys m := by
  induction m with
  | nil => simp [mapLookup, mapKeys]
  | cons p rest ih =>
    obtain ⟨k₁, v₁⟩ := p
    by_cases h1 : k₁ = k
    · subst h1; simp [mapLookup, mapKeys]
    · simp [mapLookup, mapKeys, h1, ih, Ne.symm h1]

theorem mapLookup_isSome_of_mem_keys {α : Type} {m : List (String × α)} {k : String}
    (h : k ∈ mapKeys m) : ∃ v, mapLookup m k = some v := by
  cases hv : mapLookup m k with
  | none => exact absurd ((mapLookup_eq_none_iff m k).mp hv) (not_not_intro h)
  | some v => exact ⟨v, rfl⟩

theorem mem_keys_of_mapLookup {α : Type} {m : List (String × α)} {k : String} {v : α}
    (h : mapLookup m k = some v) : k ∈ mapKeys m := by
  by_contra hk
  rw [← mapLookup_eq_none_iff m k] at hk
  rw [h] at hk
  exact Option.noConfusion hk

theorem mapInsert_of_fresh {α : Type} {m : List (String × α)} {k : String} (v : α)
    (h : k ∉ mapKeys m) : mapInsert m k v = m ++ [(k, v)] := by
  induction m with
  | nil => simp [mapInsert]
  | cons p rest ih =>
    obtain ⟨k₁, v₁⟩ := p
    simp [mapKeys] at h
    simp [mapInsert, Ne.symm h.1, ih (by simp [mapKeys, h.2])]

theorem mapKeys_cons {α : Type} (p : String × α) (rest : List (String × α)) :
    mapKeys (p :: rest) = p.1 :: mapKeys rest := rfl

theorem mapKeys_mapInsert_overwrite {α : Type} {m : List (String × α)} {k : String} (v : α)
    (h : k ∈ mapKeys m) : mapKeys (mapInsert m k v) = mapKeys m := by
  induction m with
  | nil => simp [mapKeys] at h
  | cons p rest ih =>
    obtain ⟨k₁, v₁⟩ := p
    by_cases h1 : k₁ = k
    · subst h1; simp [mapInsert, mapKeys]
    · rw [mapKeys_cons] at h
      rcases List.mem_cons.mp h with h2 | h2
      · exact absurd h2.symm h1
      · simp [mapInsert, h1, mapKeys_cons, ih h2]

theorem mapKeys_attachChild (tm : TreeMap) (k : String) (sp : SentrySpan) :
    mapKeys (attachChild tm k sp) = mapKeys tm := by
  induction tm with
  | nil => rfl
  | cons p rest ih =>
    obtain ⟨k₁, t⟩ := p
    by_cases h1 : k₁ = k <;> simp [attachChild, h1, mapKeys_cons, ih]

theorem attachChild_of_fresh {tm : TreeMap} {k : String} (sp : SentrySpan)
    (h : k ∉ mapKeys tm) : attachChild tm k sp = tm := by
  induction tm with
  | nil => rfl
  | cons p rest ih =>
    obtain ⟨k₁, t⟩ := p
    rw [mapKeys_cons] at h
    simp only [List.mem_cons, not_or] at h
    have h1 : ¬k₁ = k := fun hh => h.1 hh.symm
    simp [attachChild, h1, ih h.2]

theorem mapLookup_attachChild (tm : TreeMap) (k j : String) (sp : SentrySpan) :
    mapLookup (attachChild tm k sp) j =
      match mapLookup tm j with
      | none => none
      | some t => if j = k then some { t with childSpans := t.childSpans ++ [sp] } else some t := by
  induction tm with
  | nil => simp [attachChild, mapLookup]
  | cons p rest ih =>
    obtain ⟨k₁, t⟩ := p
    by_cases h1 : k₁ = k
    · subst h1
      by_cases h2 : k₁ = j
      · subst h2; simp [attachChild, mapLookup]
      · simp only [attachChild, if_pos rfl, mapLookup, h2, if_false, ite_false]
        cases hmj : mapLookup rest j with
        | none => simp
        | some t₂ =>
          have hne : ¬j = k₁ := fun hh => h2 hh.symm
          simp [hne]
    · by_cases h2 : k₁ = j
      · subst h2
        have hne : ¬k₁ = k := h1
        simp only [attachChild, if_neg hne, mapLookup, if_pos rfl]
        have hjk : ¬k₁ = k := h1
        simp [hjk]
      · simp [attachChild, mapLookup, h1, h2, ih]

/-- All spans owned by the trees of a tree map: each tree's root followed
by its child list. -/
def treeSpans (tm : TreeMap) : List SentrySpan :=
  tm.flatMap (fun p => p.2.rootSpan :: p.2.childSpans)

/-- The span ids of a span list. -/
def spanIds (l : List SentrySpan) : List String :=
  l.map (fun s => s.SpanID)

/-- All spans owned by a classifier state: spans placed in trees plus the
deferred worklist spans. -/
def ownedSpans (st : ClassifierState) : List SentrySpan :=
  treeSpans st.treeMap ++ st.orphans.map (fun sc => sc.span)

theorem treeSpans_append (tm₁ tm₂ : TreeMap) :
    treeSpans (tm₁ ++ tm₂) = treeSpans tm₁ ++ treeSpans tm₂ := by
  simp [treeSpans]

theorem rootSpan_mem_treeSpans {tm : TreeMap} {p : String × rootSpanTree} (h : p ∈ tm) :
    p.2.rootSpan ∈ treeSpans tm := by
  simp only [treeSpans, List.mem_flatMap]
  exact ⟨p, h, List.mem_cons_self _ _⟩

theorem childSpan_mem_treeSpans {tm : TreeMap} {p : String × rootSpanTree} {c : SentrySpan}
    (h : p ∈ tm) (hc : c ∈ p.2.childSpans) : c ∈ treeSpans tm := by
  simp only [treeSpans, List.mem_flatMap]
  exact ⟨p, h, List.mem_cons_of_mem _ hc⟩

theorem treeSpans_attachChild_perm {tm : TreeMap} {k : String} (sp : SentrySpan)
    (h : k ∈ mapKeys tm) :
    (treeSpans (attachChild tm k sp)).Perm (sp :: treeSpans tm) := by
  induction tm with
  | nil => simp [mapKeys] at h
  | cons p rest ih =>
    obtain ⟨k₁, t⟩ := p
    by_cases h1 : k₁ = k
    · subst h1
      have heq : attachChild ((k₁, t) :: rest) k₁ sp
          = (k₁, { t with childSpans := t.childSpans ++ [sp] }) :: rest := by
        simp [attachChild]
      rw [heq]
      simp only [treeSpans, List.flatMap_cons, List.cons_append, List.append_assoc,
        List.singleton_append, List.nil_append]
      exact @List.perm_middle _ sp (t.rootSpan :: t.childSpans) _
    · rw [mapKeys_cons] at h
      rcases List.mem_cons.mp h with h2 | h2
      · exact absurd h2.symm h1
      · simp only [attachChild, if_neg h1, treeSpans, List.flatMap_cons]
        refine List.Perm.trans (List.Perm.append_left _ (ih h2)) ?_
        exact List.perm_middle

theorem mem_treeSpans_attachChild {tm : TreeMap} {k : String} {sp s : SentrySpan}
    (h : s ∈ treeSpans tm) : s ∈ treeSpans (attachChild tm k sp) := by
  by_cases hk : k ∈ mapKeys tm
  · exact (treeSpans_attachChild_perm sp hk).mem_iff.mpr (List.mem_cons_of_mem _ h)
  · rw [attachChild_of_fresh sp hk]
    exact h

theorem append_singleton_middle_perm {α : Type} (X Y : List α) (a : α) :
    ((X ++ [a]) ++ Y).Perm ((X ++ Y) ++ [a]) := by
  have h1 : (X ++ [a]) ++ Y = X ++ (a :: Y) := by simp
  rw [h1]
  exact List.perm_middle.trans (List.perm_append_singleton a (X ++ Y)).symm

/-! ## The engine invariant -/

/-- The invariant relating a classifier/resolver state to the portion of
the batch it has consumed: id-map values are tree keys, id-map keys are
ids of spans placed in trees, every tree is keyed by its root's id, the
tree keys are exactly the ids of the root-classified spans, every batch
span is owned exactly once (tree spans plus worklist), every tree key is
self-mapped in the id map, and every attached child is mapped to its
tree's key. -/
structure Reach (batch : List spanCollection) (st : ClassifierState) : Prop where
  idVals : ∀ k v, mapLookup st.idMap k = some v → v ∈ mapKeys st.treeMap
  idKeys : ∀ k v, mapLookup st.idMap k = some v → k ∈ spanIds (treeSpans st.treeMap)
  rootIds : ∀ k t, mapLookup st.treeMap k = some t → t.rootSpan.SpanID = k
  treeKeys : mapKeys st.treeMap =
    (batch.filter (fun sc => IsRootSpan sc.span)).map (fun sc => sc.span.SpanID)
  owned : (ownedSpans st).Perm (batch.map (fun sc => sc.span))
  rootSelf : ∀ k, k ∈ mapKeys st.treeMap → mapLookup st.idMap k = some k
  childMapped : ∀ k t, mapLookup st.treeMap k = some t →
    ∀ c ∈ t.childSpans, mapLookup st.idMap c.SpanID = some k

/-- The ids of the batch spans, in batch order. -/
def batchIds (batch : List spanCollection) : List String :=
  batch.map (fun sc => sc.span.SpanID)

theorem ownedIds_perm_batchIds {batch : List spanCollection} {st : ClassifierState}
    (h : Reach batch st) : (spanIds (ownedSpans st)).Perm (batchIds batch) := by
  have hm := h.owned.map (fun s => s.SpanID)
  simpa [spanIds, batchIds, List.map_map, Function.comp] using hm

theorem treeSpanIds_sub_batchIds {batch : List spanCollection} {st : ClassifierState}
    (h : Reach batch st) {i : String} (hi : i ∈ spanIds (treeSpans st.treeMap)) :
    i ∈ batchIds batch := by
  have hsub : i ∈ spanIds (ownedSpans st) := by
    simp only [ownedSpans, spanIds, List.map_append, List.mem_append]
    exact Or.inl hi
  exact (ownedIds_perm_batchIds h).mem_iff.mp hsub

theorem Reach.fresh_facts {batch : List spanCollection} {st : ClassifierState}
    (h : Reach batch st) {i : String} (hfresh : i ∉ batchIds batch) :
    i ∉ mapKeys st.treeMap ∧ mapLookup st.idMap i = none ∧
      i ∉ spanIds (treeSpans st.treeMap) := by
  have h3 : i ∉ spanIds (treeSpans st.treeMap) := fun hi =>
    hfresh (treeSpanIds_sub_batchIds h hi)
  refine ⟨?_, ?_, h3⟩
  · intro hk
    obtain ⟨t, ht⟩ := mapLookup_isSome_of_mem_keys hk
    have := rootSpan_mem_treeSpans (mem_of_mapLookup ht)
    have hmem : i ∈ spanIds (treeSpans st.treeMap) := by
      simp only [spanIds, List.mem_map]
      exact ⟨t.rootSpan, this, h.rootIds i t ht⟩
    exact h3 hmem
  · cases hl : mapLookup st.idMap i with
    | none => rfl
    | some v => exact absurd (h.idKeys i v hl) h3

theorem ownedIds_nodup {batch : List spanCollection} {st : ClassifierState}
    (h : Reach batch st) (hnd : (batchIds batch).Nodup) :
    (spanIds (ownedSpans st)).Nodup :=
  (ownedIds_perm_batchIds h).nodup_iff.mpr hnd

theorem orphan_id_not_in_trees {batch : List spanCollection} {st : ClassifierState}
    (h : Reach batch st) (hnd : (batchIds batch).Nodup) {sc : spanCollection}
    (hsc : sc ∈ st.orphans) : sc.span.SpanID ∉ spanIds (treeSpans st.treeMap) := by
  have hnodup := ownedIds_nodup h hnd
  have hsplit : spanIds (ownedSpans st) =
      spanIds (treeSpans st.treeMap) ++ spanIds (st.orphans.map (fun x => x.span)) := by
    simp [ownedSpans, spanIds]
  rw [hsplit] at hnodup
  have hdisj := List.disjoint_of_nodup_append hnodup
  intro hmem
  refine hdisj hmem ?_
  simp only [spanIds, List.map_map, List.mem_map, Function.comp]
  exact ⟨sc, hsc, rfl⟩

theorem orphan_lookup_none {batch : List spanCollection} {st : ClassifierState}
    (h : Reach batch st) (hnd : (batchIds batch).Nodup) {sc : spanCollection}
    (hsc : sc ∈ st.orphans) : mapLookup st.idMap sc.span.SpanID = none := by
  cases hl : mapLookup st.idMap sc.span.SpanID with
  | none => rfl
  | some v => exact absurd (h.idKeys _ v hl) (orphan_id_not_in_trees h hnd hsc)

theorem classifyStep_reach {batch : List spanCollection} {st : ClassifierState}
    {sc : spanCollection} (h : Reach batch st)
    (hfresh : sc.span.SpanID ∉ batchIds batch) :
    Reach (batch ++ [sc]) (classifyStep st sc) := by
  obtain ⟨hkeysf, hlookf, hidsf⟩ := h.fresh_facts hfresh
  by_cases hroot : IsRootSpan sc.span
  · have hstep : classifyStep st sc =
        ⟨mapInsert st.idMap sc.span.SpanID sc.span.SpanID,
         mapInsert st.treeMap sc.span.SpanID
           ⟨sc.span, [], sc.libraryName, sc.libraryVersion, sc.resourceTags⟩,
         st.orphans⟩ := by
      simp [classifyStep, hroot]
    rw [hstep]
    have hins : mapInsert st.treeMap sc.span.SpanID
        ⟨sc.span, [], sc.libraryName, sc.libraryVersion, sc.resourceTags⟩ =
        st.treeMap ++ [(sc.span.SpanID,
          ⟨sc.span, [], sc.libraryName, sc.libraryVersion, sc.resourceTags⟩)] :=
      mapInsert_of_fresh _ hkeysf
    have hkeys : mapKeys (mapInsert st.treeMap sc.span.SpanID
        ⟨sc.span, [], sc.libraryName, sc.libraryVersion, sc.resourceTags⟩) =
        mapKeys st.treeMap ++ [sc.span.SpanID] := by
      rw [hins]; simp [mapKeys]
    have hts : treeSpans (mapInsert st.treeMap sc.span.SpanID
        ⟨sc.span, [], sc.libraryName, sc.libraryVersion, sc.resourceTags⟩) =
        treeSpans st.treeMap ++ [sc.span] := by
      rw [hins, treeSpans_append]; simp [treeSpans]
    refine ⟨?_, ?_, ?_, ?_, ?_, ?_, ?_⟩
    · intro j v hl
      rw [mapLookup_mapInsert] at hl
      rw [hkeys]
      by_cases hjk : sc.span.SpanID = j
      · rw [if_pos hjk] at hl
        obtain rfl : sc.span.SpanID = v := Option.some.inj hl
        simp
      · rw [if_neg hjk] at hl
        exact List.mem_append_left _ (h.idVals j v hl)
    · intro j v hl
      rw [mapLookup_mapInsert] at hl
      rw [hts]
      by_cases hjk : sc.span.SpanID = j
      · subst hjk
        simp [spanIds]
      · rw [if_neg hjk] at hl
        have := h.idKeys j v hl
        simp only [spanIds, List.map_append, List.mem_append]
        exact Or.inl this
    · intro j t hl
      rw [mapLookup_mapInsert] at hl
      by_cases hjk : sc.span.SpanID = j
      · rw [if_pos hjk] at hl
        obtain rfl := Option.some.inj hl
        exact hjk
      · rw [if_neg hjk] at hl
        exact h.rootIds j t hl
    · rw [hkeys, h.treeKeys]
      simp [List.filter_append, hroot]
    · show (treeSpans _ ++ st.orphans.map (fun x => x.span)).Perm _
      rw [hts, List.map_append]
      refine (append_singleton_middle_perm _ _ _).trans ?_
      have : ((batch.map fun x => x.span) ++ [sc].map fun x => x.span) =
          (batch.map fun x => x.span) ++ [sc.span] := by simp
      rw [this]
      exact h.owned.append_right [sc.span]
    · intro j hj
      rw [hkeys] at hj
      rw [mapLookup_mapInsert]
      rcases List.mem_append.mp hj with hj | hj
      · have hne : sc.span.SpanID ≠ j := fun hh => hkeysf (hh ▸ hj)
        rw [if_neg hne]
        exact h.rootSelf j hj
      · have hje : sc.span.SpanID = j := (List.mem_singleton.mp hj).symm
        rw [if_pos hje, hje]
    · intro j t hl c hc
      rw [mapLookup_mapInsert] at hl
      by_cases hjk : sc.span.SpanID = j
      · rw [if_pos hjk] at hl
        obtain rfl := Option.some.inj hl
        simp at hc
      · rw [if_neg hjk] at hl
        have hcts : c ∈ treeSpans st.treeMap :=
          childSpan_mem_treeSpans (mem_of_mapLookup hl) hc
        have hcid : c.SpanID ∈ spanIds (treeSpans st.treeMap) := by
          simp only [spanIds, List.mem_map]
          exact ⟨c, hcts, rfl⟩
        have hne : sc.span.SpanID ≠ c.SpanID := fun hh => hidsf (hh ▸ hcid)
        rw [mapLookup_mapInsert, if_neg hne]
        exact h.childMapped j t hl c hc
  · cases hl : mapLookup st.idMap sc.span.ParentSpanID with
    | some rootID =>
      have hstep : classifyStep st sc =
          ⟨mapInsert st.idMap sc.span.SpanID rootID,
           attachChild st.treeMap rootID sc.span, st.orphans⟩ := by
        simp [classifyStep, hroot, hl]
      rw [hstep]
      have hrk : rootID ∈ mapKeys st.treeMap := h.idVals _ _ hl
      have htsperm := treeSpans_attachChild_perm sc.span hrk
      have hkeys := mapKeys_attachChild st.treeMap rootID sc.span
      refine ⟨?_, ?_, ?_, ?_, ?_, ?_, ?_⟩
      · intro j v hv
        rw [mapLookup_mapInsert] at hv
        rw [hkeys]
        by_cases hjk : sc.span.SpanID = j
        · rw [if_pos hjk] at hv
          obtain rfl := Option.some.inj hv
          exact hrk
        · rw [if_neg hjk] at hv
          exact h.idVals j v hv
      · intro j v hv
        rw [mapLookup_mapInsert] at hv
        by_cases hjk : sc.span.SpanID = j
        · subst hjk
          have : sc.span ∈ treeSpans (attachChild st.treeMap rootID sc.span) :=
            htsperm.mem_iff.mpr (List.mem_cons_self _ _)
          simp only [spanIds, List.mem_map]
          exact ⟨sc.span, this, rfl⟩
        · rw [if_neg hjk] at hv
          have := h.idKeys j v hv
          simp only [spanIds, List.mem_map] at this ⊢
          obtain ⟨s, hs, rfl⟩ := this
          exact ⟨s, mem_treeSpans_attachChild hs, rfl⟩
      · intro j t ht
        rw [mapLookup_attachChild] at ht
        cases ht0 : mapLookup st.treeMap j with
        | none => rw [ht0] at ht; exact Option.noConfusion ht
        | some t0 =>
          rw [ht0] at ht
          have ht2 : (if j = rootID then
              some { t0 with childSpans := t0.childSpans ++ [sc.span] } else some t0) = some t := ht
          by_cases hjr : j = rootID
          · rw [if_pos hjr] at ht2
            obtain rfl := Option.some.inj ht2
            exact h.rootIds j t0 ht0
          · rw [if_neg hjr] at ht2
            obtain rfl := Option.some.inj ht2
            exact h.rootIds j t0 ht0
      · rw [hkeys, h.treeKeys]
        simp [List.filter_append, hroot]
      · show (treeSpans _ ++ st.orphans.map (fun x => x.span)).Perm _
        refine (htsperm.append_right _).trans ?_
        show (sc.span :: ownedSpans st).Perm _
        refine (h.owned.cons sc.span).trans ?_
        rw [List.map_append]
        have : ([sc].map fun x => x.span) = [sc.span] := by simp
        rw [this]
        exact (List.perm_append_singleton sc.span _).symm
      · intro j hj
        rw [hkeys] at hj
        have hne : sc.span.SpanID ≠ j := fun hh => hkeysf (hh ▸ hj)
        rw [mapLookup_mapInsert, if_neg hne]
        exact h.rootSelf j hj
      · intro j t ht c hc
        rw [mapLookup_attachChild] at ht
        cases ht0 : mapLookup st.treeMap j with
        | none => rw [ht0] at ht; exact Option.noConfusion ht
        | some t0 =>
          rw [ht0] at ht
          have hold : ∀ c₀ ∈ t0.childSpans,
              mapLookup (mapInsert st.idMap sc.span.SpanID rootID) c₀.SpanID = some j := by
            intro c₀ hc₀
            have hcts : c₀ ∈ treeSpans st.treeMap :=
              childSpan_mem_treeSpans (mem_of_mapLookup ht0) hc₀
            have hcid : c₀.SpanID ∈ spanIds (treeSpans st.treeMap) := by
              simp only [spanIds, List.mem_map]
              exact ⟨c₀, hcts, rfl⟩
            have hne : sc.span.SpanID ≠ c₀.SpanID := fun hh => hidsf (hh ▸ hcid)
            rw [mapLookup_mapInsert, if_neg hne]
            exact h.childMapped j t0 ht0 c₀ hc₀
          have ht2 : (if j = rootID then
              some { t0 with childSpans := t0.childSpans ++ [sc.span] } else some t0) = some t := ht
          by_cases hjr : j = rootID
          · rw [if_pos hjr] at ht2
            obtain rfl := Option.some.inj ht2
            simp only [List.mem_append, List.mem_singleton] at hc
            rcases hc with hc | hc
            · exact hold c hc
            · subst hc
              show mapLookup (mapInsert st.idMap sc.span.SpanID rootID) sc.span.SpanID = some j
              rw [mapLookup_mapInsert, if_pos rfl, hjr]
          · rw [if_neg hjr] at ht2
            obtain rfl := Option.some.inj ht2
            exact hold c hc
    | none =>
      have hstep : classifyStep st sc = ⟨st.idMap, st.treeMap, st.orphans ++ [sc]⟩ := by
        simp [classifyStep, hroot, hl]
      rw [hstep]
      refine ⟨h.idVals, h.idKeys, h.rootIds, ?_, ?_, h.rootSelf, h.childMapped⟩
      · rw [h.treeKeys]
        simp [List.filter_append, hroot]
      · show (treeSpans st.treeMap ++ (st.orphans ++ [sc]).map (fun x => x.span)).Perm _
        rw [List.map_append, List.map_append]
        have h1 : treeSpans st.treeMap ++ (st.orphans.map (fun x => x.span) ++
            ([sc].map fun x => x.span)) =
            ownedSpans st ++ [sc.span] := by
          simp [ownedSpans]
        rw [h1]
        have h2 : ([sc].map fun x => x.span) = [sc.span] := by simp
        rw [h2]
        exact h.owned.append_right [sc.span]

theorem reach_nil : Reach [] ⟨[], [], []⟩ := by
  refine ⟨?_, ?_, ?_, ?_, ?_, ?_, ?_⟩
  · intro k v hl; simp [mapLookup] at hl
  · intro k v hl; simp [mapLookup] at hl
  · intro k t hl; simp [mapLookup] at hl
  · rfl
  · simp [ownedSpans, treeSpans]
  · intro k hk; simp [mapKeys] at hk
  · intro k t hl; simp [mapLookup] at hl

theorem classify_fold_reach (scs : List spanCollection) :
    ∀ (batch : List spanCollection) (st : ClassifierState), Reach batch st →
      (batchIds (batch ++ scs)).Nodup →
      Reach (batch ++ scs) (scs.foldl classifyStep st) := by
  induction scs with
  | nil => intro batch st h _; simpa using h
  | cons sc rest ih =>
    intro batch st h hnd
    have hsplit : (batchIds batch ++ sc.span.SpanID :: batchIds rest).Nodup := by
      simpa [batchIds] using hnd
    have hfresh : sc.span.SpanID ∉ batchIds batch := by
      intro hmem
      exact (List.disjoint_of_nodup_append hsplit) hmem (List.mem_cons_self _ _)
    have hstep := classifyStep_reach h hfresh
    have hnd2 : (batchIds ((batch ++ [sc]) ++ rest)).Nodup := by
      simpa [batchIds] using hnd
    have := ih (batch ++ [sc]) (classifyStep st sc) hstep hnd2
    simpa using this

theorem classifySpans_reach (scs : List spanCollection) (hnd : (batchIds scs).Nodup) :
    Reach scs (classifySpans scs) := by
  have := classify_fold_reach scs [] ⟨[], [], []⟩ reach_nil (by simpa using hnd)
  simpa [classifySpans] using this

theorem classifyStep_orphans_mono (st : ClassifierState) (sc : spanCollection) :
    ∀ x ∈ st.orphans, x ∈ (classifyStep st sc).orphans := by
  intro x hx
  by_cases hroot : IsRootSpan sc.span
  · simpa [classifyStep, hroot] using hx
  · cases hl : mapLookup st.idMap sc.span.ParentSpanID with
    | some rootID => simpa [classifyStep, hroot, hl] using hx
    | none =>
      have : (classifyStep st sc).orphans = st.orphans ++ [sc] := by
        simp [classifyStep, hroot, hl]
      rw [this]
      exact List.mem_append_left _ hx

theorem foldl_orphans_mono (scs : List spanCollection) :
    ∀ (st : ClassifierState) (x : spanCollection), x ∈ st.orphans →
      x ∈ (scs.foldl classifyStep st).orphans := by
  induction scs with
  | nil => intro st x hx; exact hx
  | cons sc rest ih => intro st x hx; exact ih _ x (classifyStep_orphans_mono st sc x hx)

theorem classifySpans_selfparent {scs : List spanCollection} (hnd : (batchIds scs).Nodup)
    {sc : spanCollection} (hmem : sc ∈ scs)
    (hself : sc.span.ParentSpanID = sc.span.SpanID) (hne : sc.span.SpanID ≠ "") :
    sc ∈ (classifySpans scs).orphans := by
  obtain ⟨l1, l2, rfl⟩ := List.append_of_mem hmem
  have hsplit : (batchIds l1 ++ sc.span.SpanID :: batchIds l2).Nodup := by
    simpa [batchIds] using hnd
  have hnd1 : (batchIds l1).Nodup := hsplit.of_append_left
  have h1 : Reach l1 (l1.foldl classifyStep ⟨[], [], []⟩) := by
    have := classify_fold_reach l1 [] ⟨[], [], []⟩ reach_nil (by simpa using hnd1)
    simpa using this
  have hfresh : sc.span.SpanID ∉ batchIds l1 := by
    intro hmem2
    exact (List.disjoint_of_nodup_append hsplit) hmem2 (List.mem_cons_self _ _)
  have hlook : mapLookup (l1.foldl classifyStep ⟨[], [], []⟩).idMap sc.span.SpanID = none :=
    (h1.fresh_facts hfresh).2.1
  have hroot : ¬IsRootSpan sc.span = true := by
    simp only [IsRootSpan, beq_iff_eq, hself]
    exact fun hh => hne hh
  have hsc2 : sc ∈ (classifyStep (l1.foldl classifyStep ⟨[], [], []⟩) sc).orphans := by
    have hl2 : mapLookup (l1.foldl classifyStep ⟨[], [], []⟩).idMap sc.span.ParentSpanID = none := by
      rw [hself]; exact hlook
    have hstep : (classifyStep (l1.foldl classifyStep ⟨[], [], []⟩) sc).orphans =
        (l1.foldl classifyStep ⟨[], [], []⟩).orphans ++ [sc] := by
      simp [classifyStep, hroot, hl2]
    rw [hstep]
    exact List.mem_append_right _ (List.mem_singleton_self _)
  have heq : classifySpans (l1 ++ sc :: l2) =
      l2.foldl classifyStep (classifyStep (l1.foldl classifyStep ⟨[], [], []⟩) sc) := by
    simp [classifySpans, List.foldl_append]
  rw [heq]
  exact foldl_orphans_mono l2 _ sc hsc2

theorem treeKeys_sub_treeSpanIds {batch : List spanCollection} {st : ClassifierState}
    (h : Reach batch st) : ∀ k ∈ mapKeys st.treeMap, k ∈ spanIds (treeSpans st.treeMap) := by
  intro k hk
  obtain ⟨t, ht⟩ := mapLookup_isSome_of_mem_keys hk
  have hmem := rootSpan_mem_treeSpans (mem_of_mapLookup ht)
  simp only [spanIds, List.mem_map]
  exact ⟨t.rootSpan, hmem, h.rootIds k t ht⟩

theorem resolve_hit_reach {batch : List spanCollection} {idMap : IDMap} {treeMap : TreeMap}
    {left right : List spanCollection} {o : spanCollection} {rootID : String}
    (h : Reach batch ⟨idMap, treeMap, left ++ o :: right⟩)
    (hnd : (batchIds batch).Nodup)
    (hl : mapLookup idMap o.span.ParentSpanID = some rootID) :
    Reach batch ⟨mapInsert idMap o.span.SpanID rootID,
                 attachChild treeMap rootID o.span, left ++ right⟩ := by
  have hworklist : o ∈ left ++ o :: right :=
    List.mem_append_right _ (List.mem_cons_self _ _)
  have hids : o.span.SpanID ∉ spanIds (treeSpans treeMap) :=
    orphan_id_not_in_trees h hnd hworklist
  have hkeysf : o.span.SpanID ∉ mapKeys treeMap := fun hk =>
    hids (treeKeys_sub_treeSpanIds h _ hk)
  have hrk : rootID ∈ mapKeys treeMap := h.idVals _ _ hl
  have htsperm := treeSpans_attachChild_perm o.span hrk
  have hkeys := mapKeys_attachChild treeMap rootID o.span
  refine ⟨?_, ?_, ?_, ?_, ?_, ?_, ?_⟩
  · intro j v hv
    rw [mapLookup_mapInsert] at hv
    rw [hkeys]
    by_cases hjk : o.span.SpanID = j
    · rw [if_pos hjk] at hv
      obtain rfl := Option.some.inj hv
      exact hrk
    · rw [if_neg hjk] at hv
      exact h.idVals j v hv
  · intro j v hv
    rw [mapLookup_mapInsert] at hv
    by_cases hjk : o.span.SpanID = j
    · subst hjk
      have : o.span ∈ treeSpans (attachChild treeMap rootID o.span) :=
        htsperm.mem_iff.mpr (List.mem_cons_self _ _)
      simp only [spanIds, List.mem_map]
      exact ⟨o.span, this, rfl⟩
    · rw [if_neg hjk] at hv
      have := h.idKeys j v hv
      simp only [spanIds, List.mem_map] at this ⊢
      obtain ⟨s, hs, rfl⟩ := this
      exact ⟨s, mem_treeSpans_attachChild hs, rfl⟩
  · intro j t ht
    rw [mapLookup_attachChild] at ht
    cases ht0 : mapLookup treeMap j with
    | none => rw [ht0] at ht; exact Option.noConfusion ht
    | some t0 =>
      rw [ht0] at ht
      have ht2 : (if j = rootID then
          some { t0 with childSpans := t0.childSpans ++ [o.span] } else some t0) = some t := ht
      by_cases hjr : j = rootID
      · rw [if_pos hjr] at ht2
        obtain rfl := Option.some.inj ht2
        exact h.rootIds j t0 ht0
      · rw [if_neg hjr] at ht2
        obtain rfl := Option.some.inj ht2
        exact h.rootIds j t0 ht0
  · rw [hkeys]
    exact h.treeKeys
  · show (treeSpans _ ++ (left ++ right).map (fun x => x.span)).Perm _
    refine ((htsperm.append_right _).trans ?_)
    show (o.span :: (treeSpans treeMap ++ (left ++ right).map (fun x => x.span))).Perm _
    have hmid : (treeSpans treeMap ++ (left ++ o :: right).map (fun x => x.span)) =
        (treeSpans treeMap ++ left.map (fun x => x.span)) ++
          o.span :: right.map (fun x => x.span) := by
      simp
    have hshape : o.span :: (treeSpans treeMap ++ (left ++ right).map (fun x => x.span)) =
        o.span :: ((treeSpans treeMap ++ left.map (fun x => x.span)) ++
          right.map (fun x => x.span)) := by
      simp
    rw [hshape]
    refine List.Perm.trans List.perm_middle.symm ?_
    rw [← hmid]
    exact h.owned
  · intro j hj
    rw [hkeys] at hj
    have hne : o.span.SpanID ≠ j := fun hh => hkeysf (hh ▸ hj)
    rw [mapLookup_mapInsert, if_neg hne]
    exact h.rootSelf j hj
  · intro j t ht c hc
    rw [mapLookup_attachChild] at ht
    cases ht0 : mapLookup treeMap j with
    | none => rw [ht0] at ht; exact Option.noConfusion ht
    | some t0 =>
      rw [ht0] at ht
      have hold : ∀ c₀ ∈ t0.childSpans,
          mapLookup (mapInsert idMap o.span.SpanID rootID) c₀.SpanID = some j := by
        intro c₀ hc₀
        have hcts : c₀ ∈ treeSpans treeMap :=
          childSpan_mem_treeSpans (mem_of_mapLookup ht0) hc₀
        have hcid : c₀.SpanID ∈ spanIds (treeSpans treeMap) := by
          simp only [spanIds, List.mem_map]
          exact ⟨c₀, hcts, rfl⟩
        have hne : o.span.SpanID ≠ c₀.SpanID := fun hh => hids (hh ▸ hcid)
        rw [mapLookup_mapInsert, if_neg hne]
        exact h.childMapped j t0 ht0 c₀ hc₀
      have ht2 : (if j = rootID then
          some { t0 with childSpans := t0.childSpans ++ [o.span] } else some t0) = some t := ht
      by_cases hjr : j = rootID
      · rw [if_pos hjr] at ht2
        obtain rfl := Option.some.inj ht2
        simp only [List.mem_append, List.mem_singleton] at hc
        rcases hc with hc | hc
        · exact hold c hc
        · subst hc
          show mapLookup (mapInsert idMap o.span.SpanID rootID) o.span.SpanID = some j
          rw [mapLookup_mapInsert, if_pos rfl, hjr]
      · rw [if_neg hjr] at ht2
        obtain rfl := Option.some.inj ht2
        exact hold c hc

theorem resolveFold_reach (orphans : List spanCollection) :
    ∀ (batch : List spanCollection) (idMap : IDMap) (treeMap : TreeMap)
      (acc : List spanCollection),
      Reach batch ⟨idMap, treeMap, acc ++ orphans⟩ →
      (batchIds batch).Nodup →
      Reach batch ⟨(orphans.foldl resolveStep (idMap, treeMap, acc)).1,
        (orphans.foldl resolveStep (idMap, treeMap, acc)).2.1,
        (orphans.foldl resolveStep (idMap, treeMap, acc)).2.2⟩ ∧
      (∀ x ∈ acc, x ∈ (orphans.foldl resolveStep (idMap, treeMap, acc)).2.2) ∧
      (∀ x ∈ orphans, x.span.ParentSpanID = x.span.SpanID →
        x ∈ (orphans.foldl resolveStep (idMap, treeMap, acc)).2.2) := by
  induction orphans with
  | nil =>
    intro batch idMap treeMap acc h hnd
    exact ⟨by simpa using h, fun x hx => hx, fun x hx => absurd hx (List.not_mem_nil x)⟩
  | cons o rest ih =>
    intro batch idMap treeMap acc h hnd
    cases hl : mapLookup idMap o.span.ParentSpanID with
    | some rootID =>
      have hworklist : o ∈ acc ++ o :: rest :=
        List.mem_append_right _ (List.mem_cons_self _ _)
      have hnone : mapLookup idMap o.span.SpanID = none := orphan_lookup_none h hnd hworklist
      have hstep : List.foldl resolveStep (idMap, treeMap, acc) (o :: rest) =
          List.foldl resolveStep (mapInsert idMap o.span.SpanID rootID,
            attachChild treeMap rootID o.span, acc) rest := by
        simp [List.foldl_cons, resolveStep, hl]
      have hr := resolve_hit_reach h hnd hl
      obtain ⟨hre, hacc, hself⟩ :=
        ih batch (mapInsert idMap o.span.SpanID rootID)
          (attachChild treeMap rootID o.span) acc hr hnd
      rw [hstep]
      refine ⟨hre, hacc, ?_⟩
      intro x hx hxself
      rcases List.mem_cons.mp hx with hx | hx
      · subst hx
        rw [hxself] at hl
        rw [hl] at hnone
        exact Option.noConfusion hnone
      · exact hself x hx hxself
    | none =>
      have hstep : List.foldl resolveStep (idMap, treeMap, acc) (o :: rest) =
          List.foldl resolveStep (idMap, treeMap, acc ++ [o]) rest := by
        simp [List.foldl_cons, resolveStep, hl]
      have h2 : Reach batch ⟨idMap, treeMap, (acc ++ [o]) ++ rest⟩ := by
        have heq : (acc ++ [o]) ++ rest = acc ++ o :: rest := by simp
        rw [heq]
        exact h
      obtain ⟨hre, hacc, hself⟩ := ih batch idMap treeMap (acc ++ [o]) h2 hnd
      rw [hstep]
      refine ⟨hre, ?_, ?_⟩
      · intro x hx
        exact hacc x (List.mem_append_left _ hx)
      · intro x hx hxself
        rcases List.mem_cons.mp hx with hx | hx
        · subst hx
          exact hacc x (List.mem_append_right _ (List.mem_singleton_self _))
        · exact hself x hx hxself

/-- `resolvePass` preserves the engine invariant and keeps every
self-parented worklist span in the output worklist. -/
theorem resolvePass_reach {batch orphans : List spanCollection} {idMap : IDMap}
    {treeMap : TreeMap} (h : Reach batch ⟨idMap, treeMap, orphans⟩)
    (hnd : (batchIds batch).Nodup) :
    Reach batch ⟨(resolvePass orphans idMap treeMap).1,
      (resolvePass orphans idMap treeMap).2.1, (resolvePass orphans idMap treeMap).2.2⟩ ∧
    (∀ x ∈ orphans, x.span.ParentSpanID = x.span.SpanID →
      x ∈ (resolvePass orphans idMap treeMap).2.2) := by
  have h0 : Reach batch ⟨idMap, treeMap, [] ++ orphans⟩ := by simpa using h
  obtain ⟨hre, _, hself⟩ := resolveFold_reach orphans batch idMap treeMap [] h0 hnd
  exact ⟨hre, hself⟩

theorem classifyAsOrphanSpans_reach (n : Nat) :
    ∀ (orphans : List spanCollection) (prevLength : Nat) (idMap : IDMap) (treeMap : TreeMap)
      (batch : List spanCollection),
      orphans.length ≤ n →
      Reach batch ⟨idMap, treeMap, orphans⟩ →
      (batchIds batch).Nodup →
      Reach batch ⟨(classifyAsOrphanSpans orphans prevLength idMap treeMap).2.1,
        (classifyAsOrphanSpans orphans prevLength idMap treeMap).2.2,
        (classifyAsOrphanSpans orphans prevLength idMap treeMap).1⟩ ∧
      (∀ x ∈ orphans, x.span.ParentSpanID = x.span.SpanID →
        x ∈ (classifyAsOrphanSpans orphans prevLength idMap treeMap).1) := by
  induction n with
  | zero =>
    intro orphans prevLength idMap treeMap batch hlen h hnd
    have hnil : orphans = [] := List.eq_nil_of_length_eq_zero (Nat.le_zero.mp hlen)
    subst hnil
    have hc : ([] : List spanCollection).length = 0 ∨
        ([] : List spanCollection).length = prevLength := Or.inl rfl
    rw [classifyAsOrphanSpans, if_pos hc]
    exact ⟨h, fun x hx _ => hx⟩
  | succ n ih =>
    intro orphans prevLength idMap treeMap batch hlen h hnd
    rw [classifyAsOrphanSpans]
    by_cases hbase : orphans.length = 0 ∨ orphans.length = prevLength
    · rw [if_pos hbase]
      exact ⟨h, fun x hx _ => hx⟩
    · rw [if_neg hbase]
      obtain ⟨hre, hself⟩ := resolvePass_reach h hnd
      have hle := resolvePass_length_le orphans idMap treeMap
      by_cases heq : (resolvePass orphans idMap treeMap).2.2.length = orphans.length
      · rw [classifyAsOrphanSpans, if_pos (Or.inr heq)]
        exact ⟨hre, fun x hx hxs => hself x hx hxs⟩
      · have hlt : (resolvePass orphans idMap treeMap).2.2.length < orphans.length :=
          Nat.lt_of_le_of_ne hle heq
        have hbound : (resolvePass orphans idMap treeMap).2.2.length ≤ n := by omega
        obtain ⟨hre2, hself2⟩ :=
          ih (resolvePass orphans idMap treeMap).2.2 orphans.length
            (resolvePass orphans idMap treeMap).1 (resolvePass orphans idMap treeMap).2.1
            batch hbound hre hnd
        exact ⟨hre2, fun x hx hxs => hself2 x (hself x hx hxs) hxs⟩

/-! ## Termination bound and fix-point characterization of the resolver -/

/-- Fuel-bounded variant of `classifyAsOrphanSpans`: each recursive call
consumes one unit of fuel, and the result is `none` when the fuel is
exhausted before the base case is reached. -/
def classifyAsOrphanSpansFuel : Nat → List spanCollection → Nat → IDMap → TreeMap →
    Option (List spanCollection × IDMap × TreeMap)
  | 0, _, _, _, _ => none
  | fuel + 1, orphanSpans, prevLength, idMap, rootSpanTreeMap =>
    if orphanSpans.length = 0 ∨ orphanSpans.length = prevLength then
      some (orphanSpans, idMap, rootSpanTreeMap)
    else
      classifyAsOrphanSpansFuel fuel (resolvePass orphanSpans idMap rootSpanTreeMap).2.2
        orphanSpans.length (resolvePass orphanSpans idMap rootSpanTreeMap).1
        (resolvePass orphanSpans idMap rootSpanTreeMap).2.1

theorem classifyAsOrphanSpansFuel_spec (fuel : Nat) :
    ∀ (orphans : List spanCollection) (prevLength : Nat) (idMap : IDMap) (treeMap : TreeMap),
      orphans.length < fuel →
      classifyAsOrphanSpansFuel fuel orphans prevLength idMap treeMap =
        some (classifyAsOrphanSpans orphans prevLength idMap treeMap) := by
  induction fuel with
  | zero => intro orphans _ _ _ hlen; omega
  | succ fuel ih =>
    intro orphans prevLength idMap treeMap hlen
    rw [classifyAsOrphanSpans]
    by_cases hbase : orphans.length = 0 ∨ orphans.length = prevLength
    · rw [if_pos hbase]
      simp only [classifyAsOrphanSpansFuel]
      rw [if_pos hbase]
    · rw [if_neg hbase]
      push_neg at hbase
      simp only [classifyAsOrphanSpansFuel]
      rw [if_neg (by push_neg; exact hbase)]
      have hle := resolvePass_length_le orphans idMap treeMap
      by_cases heq : (resolvePass orphans idMap treeMap).2.2.length = orphans.length
      · have hfuel : fuel ≠ 0 := by omega
        obtain ⟨fuel₂, rfl⟩ := Nat.exists_eq_succ_of_ne_zero hfuel
        simp only [classifyAsOrphanSpansFuel]
        have hc : (resolvePass orphans idMap treeMap).2.2.length = 0 ∨
            (resolvePass orphans idMap treeMap).2.2.length = orphans.length := Or.inr heq
        rw [if_pos hc, classifyAsOrphanSpans, if_pos hc]
      · have hlt : (resolvePass orphans idMap treeMap).2.2.length < orphans.length :=
          Nat.lt_of_le_of_ne hle heq
        exact ih _ orphans.length _ _ (by omega)

theorem resolveFold_no_progress (orphans : List spanCollection) :
    ∀ (idMap : IDMap) (treeMap : TreeMap) (acc : List spanCollection),
      (orphans.foldl resolveStep (idMap, treeMap, acc)).2.2.length =
        acc.length + orphans.length →
      orphans.foldl resolveStep (idMap, treeMap, acc) = (idMap, treeMap, acc ++ orphans) := by
  induction orphans with
  | nil => intro idMap treeMap acc _; simp
  | cons o rest ih =>
    intro idMap treeMap acc h
    cases hl : mapLookup idMap o.span.ParentSpanID with
    | some rootID =>
      exfalso
      have hstep : List.foldl resolveStep (idMap, treeMap, acc) (o :: rest) =
          List.foldl resolveStep (mapInsert idMap o.span.SpanID rootID,
            attachChild treeMap rootID o.span, acc) rest := by
        simp [List.foldl_cons, resolveStep, hl]
      rw [hstep] at h
      have hb := resolvePass_acc_length rest (mapInsert idMap o.span.SpanID rootID)
        (attachChild treeMap rootID o.span) acc
      rw [h] at hb
      simp only [List.length_cons] at hb
      omega
    | none =>
      have hstep : List.foldl resolveStep (idMap, treeMap, acc) (o :: rest) =
          List.foldl resolveStep (idMap, treeMap, acc ++ [o]) rest := by
        simp [List.foldl_cons, resolveStep, hl]
      rw [hstep] at h ⊢
      have h2 : (List.foldl resolveStep (idMap, treeMap, acc ++ [o]) rest).2.2.length =
          (acc ++ [o]).length + rest.length := by
        simp only [List.length_append, List.length_cons, List.length_nil] at h ⊢
        omega
      rw [ih idMap treeMap (acc ++ [o]) h2]
      simp

theorem resolvePass_no_progress {orphans : List spanCollection} {idMap : IDMap}
    {treeMap : TreeMap}
    (h : (resolvePass orphans idMap treeMap).2.2.length = orphans.length) :
    resolvePass orphans idMap treeMap = (idMap, treeMap, orphans) := by
  have := resolveFold_no_progress orphans idMap treeMap [] (by simpa [resolvePass] using h)
  simpa [resolvePass] using this

theorem classifyAsOrphanSpans_fixpoint (n : Nat) :
    ∀ (orphans : List spanCollection) (prevLength : Nat) (idMap : IDMap) (treeMap : TreeMap),
      orphans.length ≤ n → orphans.length < prevLength →
      (classifyAsOrphanSpans orphans prevLength idMap treeMap).1 = [] ∨
      (resolvePass (classifyAsOrphanSpans orphans prevLength idMap treeMap).1
        (classifyAsOrphanSpans orphans prevLength idMap treeMap).2.1
        (classifyAsOrphanSpans orphans prevLength idMap treeMap).2.2).2.2.length =
        (classifyAsOrphanSpans orphans prevLength idMap treeMap).1.length := by
  induction n with
  | zero =>
    intro orphans prevLength idMap treeMap hlen _
    have hnil : orphans = [] := List.eq_nil_of_length_eq_zero (Nat.le_zero.mp hlen)
    subst hnil
    have hc : ([] : List spanCollection).length = 0 ∨
        ([] : List spanCollection).length = prevLength := Or.inl rfl
    rw [classifyAsOrphanSpans, if_pos hc]
    exact Or.inl rfl
  | succ n ih =>
    intro orphans prevLength idMap treeMap hlen hlt
    rw [classifyAsOrphanSpans]
    by_cases hbase : orphans.length = 0 ∨ orphans.length = prevLength
    · rw [if_pos hbase]
      rcases hbase with hbase | hbase
      · exact Or.inl (List.eq_nil_of_length_eq_zero hbase)
      · omega
    · rw [if_neg hbase]
      have hle := resolvePass_length_le orphans idMap treeMap
      by_cases heq : (resolvePass orphans idMap treeMap).2.2.length = orphans.length
      · have hnp := resolvePass_no_progress heq
        have hc : (resolvePass orphans idMap treeMap).2.2.length = 0 ∨
            (resolvePass orphans idMap treeMap).2.2.length = orphans.length := Or.inr heq
        rw [classifyAsOrphanSpans, if_pos hc]
        right
        rw [hnp]
        exact heq
      · have hlt2 : (resolvePass orphans idMap treeMap).2.2.length < orphans.length :=
          Nat.lt_of_le_of_ne hle heq
        exact ih _ orphans.length _ _ (by omega) hlt2

/-! ## Claim theorems -/

theorem bytesToHexString_eq_empty_iff (bs : List Nat) :
    bytesToHexString bs = "" ↔ bs = [] := by
  constructor
  · intro h
    cases bs with
    | nil => rfl
    | cons b rest =>
      have h2 := congrArg String.data h
      simp [bytesToHexString, byteToHex] at h2
  · intro h
    subst h
    rfl

/-- C5: the converted span is classified as a root exactly when its raw
parent identifier is the no-parent sentinel, i.e. the empty byte slice
or the fixed-width all-zero byte identifier; both encodings normalize to
the same empty-string sentinel, and any other (non-zero) parent
identifier yields a non-root span. The decision is a local property of
the span's parent bytes, with no map lookup involved. -/
theorem root_classification_iff (sp : OtelSpan) :
    IsRootSpan (convertToSentrySpan sp) = true ↔
      (sp.ParentSpanID = [] ∨ sp.ParentSpanID = List.replicate sp.ParentSpanID.length 0) := by
  have hparent : (convertToSentrySpan sp).ParentSpanID =
      if isAllZero sp.ParentSpanID then "" else bytesToHexString sp.ParentSpanID := rfl
  have hz_iff : isAllZero sp.ParentSpanID = true ↔ ∀ b ∈ sp.ParentSpanID, b = 0 := by
    simp [isAllZero, List.all_eq_true]
  constructor
  · intro h
    simp only [IsRootSpan, beq_iff_eq, hparent] at h
    by_cases hz : isAllZero sp.ParentSpanID
    · right
      exact List.eq_replicate_iff.mpr ⟨rfl, fun b hb => (hz_iff.mp hz) b hb⟩
    · rw [if_neg hz] at h
      have hnil := (bytesToHexString_eq_empty_iff sp.ParentSpanID).mp h
      exact absurd (hz_iff.mpr (by simp [hnil])) hz
  · intro h
    have hz : isAllZero sp.ParentSpanID = true := by
      rcases h with h | h
      · rw [hz_iff]
        simp [h]
      · rw [hz_iff]
        intro b hb
        rw [h] at hb
        exact List.eq_of_mem_replicate hb
    simp only [IsRootSpan, beq_iff_eq, hparent]
    rw [if_pos hz]

/-- C10: `statusFromSpanStatus` is total over all integer codes of a
non-nil status. Every code outside 0..16 yields the "unknown" status
together with the message "error code N"; every code inside 0..16 yields
the corresponding entry of the 17-entry canonical table (in-bounds by
construction) together with the status's own message. -/
theorem statusFromSpanStatus_total (st : SpanStatus) :
    (st.code < 0 ∨ 17 ≤ st.code →
      statusFromSpanStatus (some st) = (sentryStatusUnknown, "error code " ++ toString st.code)) ∧
    (0 ≤ st.code → st.code < 17 →
      ∃ hlt : st.code.toNat < canonicalCodes.length,
        statusFromSpanStatus (some st) = (canonicalCodes.get ⟨st.code.toNat, hlt⟩, st.message)) ∧
    sentryStatusUnknown = "unknown" := by
  have hlen : ((canonicalCodes.length : Nat) : Int) = 17 := rfl
  refine ⟨?_, ?_, rfl⟩
  · intro h
    simp only [statusFromSpanStatus]
    rw [if_pos]
    rw [hlen]
    exact h
  · intro h0 h17
    have hlt : st.code.toNat < canonicalCodes.length := by
      have hl : canonicalCodes.length = 17 := rfl
      omega
    refine ⟨hlt, ?_⟩
    simp only [statusFromSpanStatus]
    rw [if_neg]
    · rw [List.getD_eq_getElem canonicalCodes "" hlt]
      rfl
    · rw [not_or, hlen]
      constructor <;> omega

/-- C9: the output transaction's span list is exactly the tree's child
list, verbatim and in attachment order: `transactionFromTree` copies the
child list unchanged, and over a whole `generateTransactions` run the
span lists of the outputs are the tree child lists (in tree-map order)
followed by an empty list for each promoted orphan. -/
theorem transaction_spans_verbatim :
    (∀ t : rootSpanTree, (transactionFromTree t).Spans = t.childSpans) ∧
    ∀ (tm : TreeMap) (orphans : List spanCollection),
      (generateTransactions tm orphans).map (fun tr => tr.Spans) =
        tm.map (fun p => p.2.childSpans) ++ orphans.map (fun _ => ([] : List SentrySpan)) := by
  refine ⟨fun t => rfl, ?_⟩
  intro tm orphans
  unfold generateTransactions
  rw [List.map_append, List.map_map, List.map_map]
  rfl

/-- The first option when present, the fallback otherwise. -/
def orLookup {α : Type} (o fallback : Option α) : Option α :=
  match o with
  | some v => some v
  | none => fallback

theorem mapLookup_foldl_mapInsert {α : Type} (res : List (String × α)) :
    ∀ (m : List (String × α)) (k : String), (res.map Prod.fst).Nodup →
      mapLookup (res.foldl (fun acc kv => mapInsert acc kv.1 kv.2) m) k =
        orLookup (mapLookup res k) (mapLookup m k) := by
  induction res with
  | nil => intro m k _; simp [mapLookup, orLookup]
  | cons a rest ih =>
    intro m k hnd
    rw [List.map_cons, List.nodup_cons] at hnd
    simp only [List.foldl_cons]
    rw [ih (mapInsert m a.1 a.2) k hnd.2]
    by_cases hk : a.1 = k
    · subst hk
      have hrest : mapLookup rest a.1 = none :=
        (mapLookup_eq_none_iff rest a.1).mpr (by simpa [mapKeys] using hnd.1)
      have hhead : mapLookup (a :: rest) a.1 = some a.2 := by
        obtain ⟨a1, a2⟩ := a
        simp [mapLookup]
      rw [hrest, hhead, mapLookup_mapInsert, if_pos rfl]
      simp [orLookup]
    · have hhead : mapLookup (a :: rest) k = mapLookup rest k := by
        obtain ⟨a1, a2⟩ := a
        simp only [mapLookup]
        rw [if_neg hk]
      rw [hhead, mapLookup_mapInsert, if_neg hk]

/-- C1 (amended): when the tree's resource-tag map has no duplicate keys,
the rendered transaction's tag for any key is the resource tag when the
key is present among the resource tags — resource tags overwrite
root-span tags on collision — and the root span's own tag otherwise. -/
theorem resource_tags_override (t : rootSpanTree) (k : String)
    (hnd : (t.resourceTags.map Prod.fst).Nodup) :
    mapLookup (transactionFromTree t).Tags k =
      orLookup (mapLookup t.resourceTags k) (mapLookup t.rootSpan.Tags k) := by
  have h : (transactionFromTree t).Tags =
      t.resourceTags.foldl (fun acc kv => mapInsert acc kv.1 kv.2) t.rootSpan.Tags := rfl
  rw [h]
  exact mapLookup_foldl_mapInsert t.resourceTags t.rootSpan.Tags k hnd

/-- The concrete tree exhibiting the tag collision: the root span and the
resource tags both carry the key "environment". -/
def C1cexTree : rootSpanTree :=
  ⟨⟨"t1", "aa", "", "desc", "op", [("environment", "root-value")], 0, 1, "ok"⟩,
   [], "lib", "1.0", [("environment", "resource-value")]⟩

/-- C1 (counterexample): rendering a tree whose root span carries
tag "environment" = "root-value" while the resource tags carry
"environment" = "resource-value" yields a transaction whose
"environment" tag is the resource value, not the root span's value —
the root span's value is NOT kept on collision, refuting the claim as
stated. -/
theorem resource_tags_overwrite_cex :
    mapLookup C1cexTree.rootSpan.Tags "environment" = some "root-value" ∧
    mapLookup C1cexTree.resourceTags "environment" = some "resource-value" ∧
    mapLookup (transactionFromTree C1cexTree).Tags "environment" = some "resource-value" ∧
    mapLookup (transactionFromTree C1cexTree).Tags "environment" ≠
      mapLookup C1cexTree.rootSpan.Tags "environment" := by
  refine ⟨rfl, rfl, rfl, ?_⟩
  decide

/-- C1 (witness): the amended claim applied to the concrete collision
tree: the "environment" tag of the output is the resource value. -/
theorem resource_tags_override_witness :
    mapLookup (transactionFromTree C1cexTree).Tags "environment" = some "resource-value" := by
  have h := resource_tags_override C1cexTree "environment" (by decide)
  rw [h]
  rfl

/-- C2: for every worklist and any id map and tree map, the orphan
resolver as called by `pushTraceData` (previous length seeded to one more
than the worklist length) completes within worklist-length passes plus
the final base-case check — the fuel-bounded variant with n+1 units of
fuel, each recursive call consuming one, already reaches the result —
and it returns exactly at the fix point: the final worklist is empty or
one more pass over it resolves nothing (output length equals input
length). -/
theorem classifyAsOrphanSpans_terminates (orphans : List spanCollection)
    (idMap : IDMap) (treeMap : TreeMap) :
    classifyAsOrphanSpansFuel (orphans.length + 1) orphans (orphans.length + 1) idMap treeMap =
      some (classifyAsOrphanSpans orphans (orphans.length + 1) idMap treeMap) ∧
    ((classifyAsOrphanSpans orphans (orphans.length + 1) idMap treeMap).1 = [] ∨
      (resolvePass (classifyAsOrphanSpans orphans (orphans.length + 1) idMap treeMap).1
        (classifyAsOrphanSpans orphans (orphans.length + 1) idMap treeMap).2.1
        (classifyAsOrphanSpans orphans (orphans.length + 1) idMap treeMap).2.2).2.2.length =
        (classifyAsOrphanSpans orphans (orphans.length + 1) idMap treeMap).1.length) := by
  constructor
  · exact classifyAsOrphanSpansFuel_spec _ orphans _ idMap treeMap (Nat.lt_succ_self _)
  · exact classifyAsOrphanSpans_fixpoint orphans.length orphans (orphans.length + 1)
      idMap treeMap (Nat.le_refl _) (Nat.lt_succ_self _)

theorem classifyAsOrphanSpans_eval (orphans : List spanCollection) (prevLength : Nat)
    (idMap : IDMap) (treeMap : TreeMap) (r : List spanCollection × IDMap × TreeMap)
    (h : classifyAsOrphanSpansFuel (orphans.length + 1) orphans prevLength idMap treeMap =
      some r) :
    classifyAsOrphanSpans orphans prevLength idMap treeMap = r := by
  have hs := classifyAsOrphanSpansFuel_spec (orphans.length + 1) orphans prevLength idMap
    treeMap (Nat.lt_succ_self _)
  rw [h] at hs
  exact (Option.some.inj hs).symm

/-- The 3-generation chain fixture: root with id "0a", A with id "0b"
whose parent is the root, B with id "0c" whose parent is A. -/
def C3rootSpan : SentrySpan := ⟨"t3", "0a", "", "root", "op", [], 0, 10, "ok"⟩

def C3spanA : SentrySpan := ⟨"t3", "0b", "0a", "span-a", "op", [], 1, 9, "ok"⟩

def C3spanB : SentrySpan := ⟨"t3", "0c", "0b", "span-b", "op", [], 2, 8, "ok"⟩

/-- The chain batch in reverse-causal order [B, A, root]. -/
def C3batch : List spanCollection :=
  [⟨C3spanB, "lib", "1", []⟩, ⟨C3spanA, "lib", "1", []⟩, ⟨C3rootSpan, "lib", "1", []⟩]

/-- C3: on the 3-generation chain root→A→B presented as [B, A, root],
after the classifier pass and the orphan-resolver fix point, the tree
keyed by the root's span id owns both A and B (in resolution order), and
the remaining-unresolved worklist is empty. -/
theorem chain_reverse_order_resolves :
    ((mapLookup (classifyAsOrphanSpans (classifySpans C3batch).orphans
        ((classifySpans C3batch).orphans.length + 1) (classifySpans C3batch).idMap
        (classifySpans C3batch).treeMap).2.2 "0a").map fun t => t.childSpans) =
      some [C3spanA, C3spanB] ∧
    (classifyAsOrphanSpans (classifySpans C3batch).orphans
        ((classifySpans C3batch).orphans.length + 1) (classifySpans C3batch).idMap
        (classifySpans C3batch).treeMap).1 = [] := by
  have heval := classifyAsOrphanSpans_eval (classifySpans C3batch).orphans
    ((classifySpans C3batch).orphans.length + 1) (classifySpans C3batch).idMap
    (classifySpans C3batch).treeMap _ rfl
  rw [heval]
  exact ⟨rfl, rfl⟩

/-- The engine state after classification and orphan resolution, exactly
as sequenced by `pushTraceData`: the final unresolved worklist, id map
and tree map. -/
def finalResult (spans : List spanCollection) : List spanCollection × IDMap × TreeMap :=
  classifyAsOrphanSpans (classifySpans spans).orphans
    ((classifySpans spans).orphans.length + 1) (classifySpans spans).idMap
    (classifySpans spans).treeMap

theorem pushTraceData_eq (spans : List spanCollection) :
    pushTraceData spans = generateTransactions (finalResult spans).2.2 (finalResult spans).1 :=
  rfl

theorem finalResult_reach (scs : List spanCollection) (hnd : (batchIds scs).Nodup) :
    Reach scs ⟨(finalResult scs).2.1, (finalResult scs).2.2, (finalResult scs).1⟩ := by
  have h0 := classifySpans_reach scs hnd
  exact (classifyAsOrphanSpans_reach (classifySpans scs).orphans.length
    (classifySpans scs).orphans ((classifySpans scs).orphans.length + 1)
    (classifySpans scs).idMap (classifySpans scs).treeMap scs (Nat.le_refl _) h0 hnd).1

theorem finalResult_selfparent (scs : List spanCollection) (hnd : (batchIds scs).Nodup)
    {sc : spanCollection} (hmem : sc ∈ scs)
    (hself : sc.span.ParentSpanID = sc.span.SpanID) (hne : sc.span.SpanID ≠ "") :
    sc ∈ (finalResult scs).1 := by
  have h0 := classifySpans_reach scs hnd
  have horph := classifySpans_selfparent hnd hmem hself hne
  exact (classifyAsOrphanSpans_reach (classifySpans scs).orphans.length
    (classifySpans scs).orphans ((classifySpans scs).orphans.length + 1)
    (classifySpans scs).idMap (classifySpans scs).treeMap scs (Nat.le_refl _) h0 hnd).2
    sc horph hself

theorem outputTrees_flat (tm : TreeMap) (orphans : List spanCollection) :
    (outputTrees tm orphans).flatMap (fun t => t.rootSpan :: t.childSpans) =
      treeSpans tm ++ orphans.map (fun o => o.span) := by
  unfold outputTrees
  rw [List.flatMap_append]
  congr 1
  · induction tm with
    | nil => rfl
    | cons p rest ih =>
      simp only [List.map_cons, List.flatMap_cons, treeSpans] at ih ⊢
      rw [ih]
  · induction orphans with
    | nil => rfl
    | cons o rest ih =>
      simp only [List.map_cons, List.flatMap_cons] at ih ⊢
      rw [ih]
      rfl

/-- C4: for every batch with pairwise distinct span ids, the spans of
the output transaction trees (each tree's root followed by its child
list) are a permutation of the batch's spans, and every batch span
occurs exactly once across all output trees — as a root or as a child,
never twice and never zero times. -/
theorem single_ownership (scs : List spanCollection)
    (hnd : (scs.map (fun sc => sc.span.SpanID)).Nodup) :
    ((outputTrees (finalResult scs).2.2 (finalResult scs).1).flatMap
        (fun t => t.rootSpan :: t.childSpans)).Perm (scs.map (fun sc => sc.span)) ∧
    ∀ sc ∈ scs,
      ((outputTrees (finalResult scs).2.2 (finalResult scs).1).flatMap
        (fun t => t.rootSpan :: t.childSpans)).count sc.span = 1 := by
  have hre := finalResult_reach scs hnd
  have hperm : ((outputTrees (finalResult scs).2.2 (finalResult scs).1).flatMap
      (fun t => t.rootSpan :: t.childSpans)).Perm (scs.map (fun sc => sc.span)) := by
    rw [outputTrees_flat]
    exact hre.owned
  refine ⟨hperm, ?_⟩
  intro sc hmem
  have hspans : (scs.map (fun sc => sc.span)).Nodup := by
    have h2 : (scs.map (fun sc => sc.span)).map (fun s => s.SpanID) =
        scs.map (fun sc => sc.span.SpanID) := by
      rw [List.map_map]
      rfl
    exact List.Nodup.of_map _ (h2 ▸ hnd)
  have hcount : (scs.map (fun sc => sc.span)).count sc.span = 1 :=
    List.count_eq_one_of_mem hspans (List.mem_map_of_mem _ hmem)
  rw [hperm.count_eq]
  exact hcount

/-- The concrete distinct-id batch used to witness the whole-pipeline
claims: a root, a child of the root, and a span with an absent parent. -/
def pipelineBatch : List spanCollection :=
  [⟨⟨"tw", "a1", "", "root", "op", [], 0, 9, "ok"⟩, "lib", "1", []⟩,
   ⟨⟨"tw", "b2", "a1", "child", "op", [], 1, 8, "ok"⟩, "lib", "1", []⟩,
   ⟨⟨"tw", "c3", "ff", "orphan", "op", [], 2, 7, "ok"⟩, "lib", "1", []⟩]

/-- C4 (witness): single ownership on the concrete three-span batch. -/
theorem single_ownership_witness :
    ((outputTrees (finalResult pipelineBatch).2.2 (finalResult pipelineBatch).1).flatMap
        (fun t => t.rootSpan :: t.childSpans)).Perm
      (pipelineBatch.map (fun sc => sc.span)) ∧
    ∀ sc ∈ pipelineBatch,
      ((outputTrees (finalResult pipelineBatch).2.2 (finalResult pipelineBatch).1).flatMap
        (fun t => t.rootSpan :: t.childSpans)).count sc.span = 1 :=
  single_ownership pipelineBatch (by decide)

/-- C6: for every batch with pairwise distinct span ids, the number of
output transactions equals the number of spans the classifier marked as
roots plus the number of worklist spans still unresolved after the
orphan-resolver fix point. -/
theorem transaction_count (scs : List spanCollection)
    (hnd : (scs.map (fun sc => sc.span.SpanID)).Nodup) :
    (generateTransactions (finalResult scs).2.2 (finalResult scs).1).length =
      (scs.filter (fun sc => IsRootSpan sc.span)).length + (finalResult scs).1.length := by
  have hre := finalResult_reach scs hnd
  have hkeys := hre.treeKeys
  have hlen : (finalResult scs).2.2.length = (scs.filter (fun sc => IsRootSpan sc.span)).length := by
    have h2 := congrArg List.length hkeys
    simpa [mapKeys] using h2
  simp only [generateTransactions, List.length_append, List.length_map]
  rw [hlen]

/-- C6 (witness): the concrete three-span batch yields 1 root-classified
span plus 1 never-resolved span, matching the transaction count. -/
theorem transaction_count_witness :
    (generateTransactions (finalResult pipelineBatch).2.2 (finalResult pipelineBatch).1).length =
      (pipelineBatch.filter (fun sc => IsRootSpan sc.span)).length +
        (finalResult pipelineBatch).1.length :=
  transaction_count pipelineBatch (by decide)

/-- The state reached after n full resolver passes, starting from an
(idMap, treeMap, worklist) triple. -/
def resolveIter : Nat → IDMap × TreeMap × List spanCollection →
    IDMap × TreeMap × List spanCollection
  | 0, s => s
  | n + 1, s => resolveIter n (resolvePass s.2.2 s.1 s.2.1)

/-- The id-map consistency property of the claim: every tree key is
mapped to itself, and every span appended to a tree's child list is
mapped to that tree's key. -/
def idMapConsistent (idMap : IDMap) (treeMap : TreeMap) : Prop :=
  (∀ k, k ∈ mapKeys treeMap → mapLookup idMap k = some k) ∧
  (∀ k t, mapLookup treeMap k = some t → ∀ c ∈ t.childSpans,
    mapLookup idMap c.SpanID = some k)

theorem resolveIter_reach (n : Nat) :
    ∀ (batch : List spanCollection) (s : IDMap × TreeMap × List spanCollection),
      Reach batch ⟨s.1, s.2.1, s.2.2⟩ → (batchIds batch).Nodup →
      Reach batch ⟨(resolveIter n s).1, (resolveIter n s).2.1, (resolveIter n s).2.2⟩ := by
  induction n with
  | zero => intro batch s h _; exact h
  | succ n ih =>
    intro batch s h hnd
    exact ih batch (resolvePass s.2.2 s.1 s.2.1) (resolvePass_reach h hnd).1 hnd

/-- C7 (amended, requiring pairwise distinct span ids): at every point
during classification — after any prefix of the batch — and at every
resolver pass boundary, the id map is consistent with the tree map:
every tree-map key is mapped to itself and every attached child's id is
mapped to its tree's root id. -/
theorem idMap_consistency_distinct (scs : List spanCollection)
    (hnd : (scs.map (fun sc => sc.span.SpanID)).Nodup) :
    (∀ n, idMapConsistent (classifySpans (scs.take n)).idMap
      (classifySpans (scs.take n)).treeMap) ∧
    (∀ n, idMapConsistent
      (resolveIter n ((classifySpans scs).idMap, (classifySpans scs).treeMap,
        (classifySpans scs).orphans)).1
      (resolveIter n ((classifySpans scs).idMap, (classifySpans scs).treeMap,
        (classifySpans scs).orphans)).2.1) := by
  constructor
  · intro n
    have hnd2 : (batchIds (scs.take n)).Nodup := by
      have hsub : (batchIds (scs.take n)).Sublist (batchIds scs) := by
        simp only [batchIds, List.map_take]
        exact List.take_sublist n _
      exact List.Nodup.sublist hsub hnd
    have hre := classifySpans_reach (scs.take n) hnd2
    exact ⟨hre.rootSelf, hre.childMapped⟩
  · intro n
    have hre0 := classifySpans_reach scs hnd
    have hre := resolveIter_reach n scs
      ((classifySpans scs).idMap, (classifySpans scs).treeMap, (classifySpans scs).orphans)
      hre0 hnd
    exact ⟨hre.rootSelf, hre.childMapped⟩

/-- The duplicate-id batch refuting the unconditional claim: two roots
with ids "aa" and "bb", then a span with the duplicated id "aa" whose
parent is "bb". -/
def C7cexBatch : List spanCollection :=
  [⟨⟨"t7", "aa", "", "d", "o", [], 0, 1, "ok"⟩, "l", "1", []⟩,
   ⟨⟨"t7", "bb", "", "d", "o", [], 0, 1, "ok"⟩, "l", "1", []⟩,
   ⟨⟨"t7", "aa", "bb", "d", "o", [], 0, 1, "ok"⟩, "l", "1", []⟩]

/-- C7 (counterexample): on the duplicate-id batch, after classification
the key "aa" is in the tree map but the id map sends "aa" to "bb", not
to itself — the invariant fails as stated (without a distinctness
assumption). -/
theorem idMap_consistency_cex :
    "aa" ∈ mapKeys (classifySpans C7cexBatch).treeMap ∧
    mapLookup (classifySpans C7cexBatch).idMap "aa" = some "bb" ∧
    mapLookup (classifySpans C7cexBatch).idMap "aa" ≠ some "aa" := by
  refine ⟨by decide, rfl, by decide⟩

/-- C7 (witness): the amended claim on the concrete distinct-id chain
batch, instantiated after the whole classifier run and after two
resolver passes. -/
theorem idMap_consistency_distinct_witness :
    idMapConsistent (classifySpans (C3batch.take 3)).idMap
      (classifySpans (C3batch.take 3)).treeMap ∧
    idMapConsistent
      (resolveIter 2 ((classifySpans C3batch).idMap, (classifySpans C3batch).treeMap,
        (classifySpans C3batch).orphans)).1
      (resolveIter 2 ((classifySpans C3batch).idMap, (classifySpans C3batch).treeMap,
        (classifySpans C3batch).orphans)).2.1 :=
  ⟨(idMap_consistency_distinct C3batch (by decide)).1 3,
   (idMap_consistency_distinct C3batch (by decide)).2 2⟩

theorem filter_promoted_eq {W : List spanCollection} {sc : spanCollection}
    (hmem : sc ∈ W) (hnd : (W.map (fun o => o.span.SpanID)).Nodup) :
    (W.map promotedTree).filter (fun t => t.rootSpan == sc.span) = [promotedTree sc] := by
  induction W with
  | nil => exact absurd hmem (List.not_mem_nil sc)
  | cons w rest ih =>
    rw [List.map_cons, List.nodup_cons] at hnd
    by_cases hw : w.span = sc.span
    · have hwsc : w = sc := by
        rcases List.mem_cons.mp hmem with h | h
        · exact h.symm
        · exfalso
          apply hnd.1
          rw [show w.span.SpanID = sc.span.SpanID from congrArg SentrySpan.SpanID hw]
          exact List.mem_map_of_mem _ h
      subst hwsc
      rw [List.map_cons]
      rw [List.filter_cons_of_pos (by simp [promotedTree, hw])]
      have hrest : (rest.map promotedTree).filter (fun t => t.rootSpan == w.span) = [] := by
        rw [List.filter_eq_nil_iff]
        intro t ht
        obtain ⟨o, ho, rfl⟩ := List.mem_map.mp ht
        simp only [promotedTree, beq_iff_eq]
        intro heq
        apply hnd.1
        rw [show w.span.SpanID = o.span.SpanID from (congrArg SentrySpan.SpanID heq).symm]
        exact List.mem_map_of_mem _ ho
      rw [hrest]
    · have hmem2 : sc ∈ rest := by
        rcases List.mem_cons.mp hmem with h | h
        · exact absurd (congrArg spanCollection.span h.symm) hw
        · exact h
      rw [List.map_cons]
      rw [List.filter_cons_of_neg (by simp [promotedTree, hw])]
      exact ih hmem2 hnd.2

/-- C8: in every batch with pairwise distinct ids, a span whose parent
id equals its own (non-empty) span id never resolves: it ends in the
final unresolved worklist (promoted to a root), no crash occurs (all
functions are total), and the output contains exactly one transaction
tree rooted at that span, with an empty child list. -/
theorem selfparent_promoted (scs : List spanCollection)
    (hnd : (scs.map (fun sc => sc.span.SpanID)).Nodup) (sc : spanCollection)
    (hmem : sc ∈ scs) (hself : sc.span.ParentSpanID = sc.span.SpanID)
    (hne : sc.span.SpanID ≠ "") :
    sc ∈ (finalResult scs).1 ∧
    ((outputTrees (finalResult scs).2.2 (finalResult scs).1).filter
        (fun t => t.rootSpan == sc.span)).map (fun t => t.childSpans) = [[]] := by
  have hre := finalResult_reach scs hnd
  have hW : sc ∈ (finalResult scs).1 := finalResult_selfparent scs hnd hmem hself hne
  refine ⟨hW, ?_⟩
  have hnotin := orphan_id_not_in_trees hre hnd hW
  have hWnd : ((finalResult scs).1.map (fun o => o.span.SpanID)).Nodup := by
    have hown := ownedIds_nodup hre hnd
    have hsplit : spanIds (ownedSpans ⟨(finalResult scs).2.1, (finalResult scs).2.2,
        (finalResult scs).1⟩) =
        spanIds (treeSpans (finalResult scs).2.2) ++
          (finalResult scs).1.map (fun o => o.span.SpanID) := by
      simp [ownedSpans, spanIds, List.map_map]
    rw [hsplit] at hown
    exact hown.of_append_right
  have hleft : ((finalResult scs).2.2.map (fun p => p.2)).filter
      (fun t => t.rootSpan == sc.span) = [] := by
    rw [List.filter_eq_nil_iff]
    intro t ht
    obtain ⟨p, hp, rfl⟩ := List.mem_map.mp ht
    simp only [beq_iff_eq]
    intro heq
    apply hnotin
    have hmemts : p.2.rootSpan ∈ treeSpans (finalResult scs).2.2 := rootSpan_mem_treeSpans hp
    rw [← heq]
    simp only [spanIds, List.mem_map]
    exact ⟨p.2.rootSpan, hmemts, rfl⟩
  unfold outputTrees
  rw [List.filter_append, hleft, List.nil_append,
    filter_promoted_eq hW hWnd]
  rfl

/-- The singleton self-parented batch: one span whose parent id equals
its own id "0a". -/
def C8batch : List spanCollection :=
  [⟨⟨"t8", "0a", "0a", "self", "op", [], 0, 1, "ok"⟩, "lib", "1", []⟩]

/-- C8 (witness): the self-parented span of the singleton batch ends
unresolved and owns exactly one childless output tree. -/
theorem selfparent_promoted_witness :
    (⟨⟨"t8", "0a", "0a", "self", "op", [], 0, 1, "ok"⟩, "lib", "1", []⟩ : spanCollection) ∈
      (finalResult C8batch).1 ∧
    ((outputTrees (finalResult C8batch).2.2 (finalResult C8batch).1).filter
        (fun t => t.rootSpan ==
          (⟨⟨"t8", "0a", "0a", "self", "op", [], 0, 1, "ok"⟩, "lib", "1", []⟩ :
            spanCollection).span)).map (fun t => t.childSpans) = [[]] :=
  selfparent_promoted C8batch (by decide) _ (by decide) rfl (by decide)

/-- C10 (witness): code 20 (out of range) yields the unknown status with
message "error code 20"; code 3 yields the fourth canonical table entry
with the status's own message. -/
theorem statusFromSpanStatus_total_witness :
    statusFromSpanStatus (some ⟨20, "boom"⟩) = (sentryStatusUnknown, "error code 20") ∧
    statusFromSpanStatus (some ⟨3, "msg"⟩) =
      (canonicalCodes.get ⟨3, by decide⟩, "msg") := by
  constructor
  · exact (statusFromSpanStatus_total ⟨20, "boom"⟩).1 (Or.inr (by decide))
  · obtain ⟨hlt, he⟩ := (statusFromSpanStatus_total ⟨3, "msg"⟩).2.1 (by decide) (by decide)
    exact he

end SentryExporter
